import Mathlib

/-!
Verification development for the spectral-analysis and peak-correlation engine
of remoteOpenFASTplotter.

Python floats are modelled as exact rationals (`ℚ`) in the combinatorial parts
of the code and as reals (`ℝ`) in the transform parts; a float value that may
be NaN is modelled as `Option ℚ` with `none` standing for NaN.  Python
exceptions are modelled with `Except`/`Option` results.  Python `list.sort`
(Timsort) is a stable sort and is modelled by `List.insertionSort`, which is
stable for the same total preorder.
-/

namespace OFP

/-- Scan computing the first index of the minimum of `best :: xs`, where `bi` is
the index carried for `best` and `i` the index of the head of `xs`.  Models the
behaviour of `np.argmin` (first occurrence of the minimum wins, strict `<`
updates). -/
def argminGo (best : ℚ) (bi i : ℕ) : List ℚ → ℕ
  | [] => bi
  | x :: xs => if x < best then argminGo x i (i + 1) xs else argminGo best bi (i + 1) xs

/-- Models `np.argmin` on a 1-d array: `none` on the empty array (where numpy
raises `ValueError`), otherwise the first index of the minimum. -/
def argmin (l : List ℚ) : Option ℕ :=
  match l with
  | [] => none
  | x :: xs => some (argminGo x 0 1 xs)

/-- Round a rational to the nearest integer, ties to even — the rounding used
by Python float formatting. -/
def roundHalfEven (x : ℚ) : ℤ :=
  let fl := ⌊x⌋
  let frac := x - fl
  if frac < 1 / 2 then fl
  else if 1 / 2 < frac then fl + 1
  else if fl % 2 = 0 then fl else fl + 1

/-- Left-pad the decimal digits of `m` with zeros to width 4. -/
def pad4 (m : ℕ) : String :=
  let s := toString m
  String.mk (List.replicate (4 - s.length) '0') ++ s

/-- Models the Python format expression on line 816 of
`src/callbacks/phase_callbacks.py`: the clicked frequency rendered with
4 decimal places (round half to even), used as `frequency_label`. -/
def format4 (q : ℚ) : String :=
  let sign := if q < 0 then "-" else ""
  let n := roundHalfEven (|q| * 10000)
  sign ++ toString (n / 10000) ++ "." ++ pad4 (n % 10000).toNat

/-- One cached trace of the phase-analysis raw-data store
(`raw_data[trace_name]`, built on lines 154-158 of
`src/callbacks/phase_callbacks.py`): frequency, magnitude and phase arrays.
Magnitude and phase entries may be NaN (`none`). -/
structure TraceData where
  freq : List ℚ
  mag : List (Option ℚ)
  phase : List (Option ℚ)
deriving DecidableEq

/-- A peak record as assembled on lines 840-848 of
`src/callbacks/phase_callbacks.py`.  `magnitude`/`phase` keep the `Option`
(NaN-able) value type of the underlying store. -/
structure Peak where
  frequency : ℚ
  magnitude : Option ℚ
  phase : Option ℚ
  trace : String
  frequency_label : String
deriving DecidableEq

/-- Models the test `abs(freq_array[idx] - freq) / freq > 0.01` on line 831 of
`src/callbacks/phase_callbacks.py` under IEEE semantics, where `d` is the
(nonnegative) distance `abs(freq_array[idx] - freq)`.  For `freq = 0` numpy
produces `inf` (`d ≠ 0`, and `inf > 0.01` is true) or `nan` (`d = 0`, and
`nan > 0.01` is false) instead of raising. -/
def relTolExceeded (d f : ℚ) : Bool :=
  if f = 0 then decide (d ≠ 0) else decide (1 / 100 < d / f)

/-- The per-trace body of the loop on lines 819-856 of
`src/callbacks/phase_callbacks.py`.  `none` models both the `continue`
branches (tolerance exceeded, NaN magnitude or phase) and a per-trace
exception swallowed by the inner `try`/`except` (empty frequency array, or
magnitude/phase array shorter than the frequency array). -/
def processTrace (f : ℚ) (label name : String) (td : TraceData) : Option Peak :=
  match argmin (td.freq.map (fun x => |x - f|)) with
  | none => none
  | some idx =>
    let mf := td.freq.getD idx 0
    if relTolExceeded |mf - f| f then none
    else
      match td.mag.get? idx, td.phase.get? idx with
      | some mv, some pv =>
        match mv, pv with
        | some m, some p => some ⟨mf, some m, some p, name, label⟩
        | _, _ => none
      | _, _ => none

/-- The batch of new peaks collected at the clicked frequency `f`
(`new_peaks`, lines 815-856), in raw-data order, before the magnitude sort. -/
def newPeaksRaw (f : ℚ) (raw : List (String × TraceData)) : List Peak :=
  raw.filterMap (fun nt => processTrace f (format4 f) nt.1 nt.2)

/-- Sort key of `new_peaks.sort(key=..., reverse=True)` on line 864:
magnitude descending (all sorted records carry a `some` magnitude). -/
def magDescOrder (a b : Peak) : Prop :=
  b.magnitude.getD 0 ≤ a.magnitude.getD 0

instance : DecidableRel magDescOrder :=
  fun a b => inferInstanceAs (Decidable (_ ≤ _))

/-- Lexicographic comparison of character lists by code point. -/
def listCharLe : List Char → List Char → Bool
  | [], _ => true
  | _ :: _, [] => false
  | a :: as, b :: bs => if a = b then listCharLe as bs else decide (a < b)

/-- Models Python string `<=`: lexicographic comparison by code point. -/
def pyStrLe (a b : String) : Bool := listCharLe a.data b.data

/-- Sort key of the final `peaks.sort` on lines 885-889: the pair
`(frequency, trace)` in ascending lexicographic order (Python tuple
comparison). -/
def peakKeyOrder (a b : Peak) : Prop :=
  a.frequency < b.frequency ∨ (a.frequency = b.frequency ∧ pyStrLe a.trace b.trace = true)

instance : DecidableRel peakKeyOrder :=
  fun a b => inferInstanceAs (Decidable (_ ∨ _))

/-- Lines 813-891 of `src/callbacks/phase_callbacks.py`: collect the batch of
peaks at the clicked frequency, return the existing collection if the batch is
empty, otherwise sort the batch by magnitude descending, drop every existing
record with the same `frequency_label`, append the batch, and re-sort by
`(frequency, trace)`. -/
def selectPeakCore (f : ℚ) (raw : List (String × TraceData)) (existing : List Peak) :
    List Peak :=
  let frequency_label := format4 f
  let new_peaks := newPeaksRaw f raw
  if new_peaks = [] then existing
  else
    let new_sorted := List.insertionSort magDescOrder new_peaks
    let existing_freq_labels := existing.map (fun p => p.frequency_label)
    let peaks :=
      if frequency_label ∈ existing_freq_labels then
        existing.filter (fun p => decide (p.frequency_label ≠ frequency_label))
      else existing
    List.insertionSort peakKeyOrder (peaks ++ new_sorted)

/-- Taxonomy of the Python exceptions raised by the embedded code paths. -/
inductive PyErr where
  | typeErr
  | valueEmpty
  | valueInsufficient
  | valueUnknownAveraging
  | floatConv
  | indexErr
deriving DecidableEq

/-- Models Python `float(v)` applied to a JSON click value: `none` stands for a
value (null or a non-numeric string) on which `float` raises. -/
def pyFloat (v : Option ℚ) : Except PyErr ℚ :=
  match v with
  | none => .error .typeErr
  | some q => .ok q

/-- The body of the outer `try` of `select_peak_from_click` (lines 710-891 of
`src/callbacks/phase_callbacks.py`).  `clickX` is the clicked x value fed to
`float` on line 713; `traceResolved` abstracts the figure/curve-number lookup
of lines 714-805 (when no trace name is resolved the callback returns the
existing collection on lines 807-809). -/
def selectPeakBody (clickX : Option ℚ) (traceResolved : Bool)
    (raw : List (String × TraceData)) (existing : List Peak) :
    Except PyErr (List Peak) := do
  let f ← pyFloat clickX
  if traceResolved then
    pure (selectPeakCore f raw existing)
  else
    pure existing

/-- The `select_peak_from_click` callback with its outer `except` handler
(lines 893-897): any exception makes it return `existing_peaks or []`.  A
Python `existing_peaks` of `None` is modelled as the empty list, which `or []`
maps to the same value. -/
def select_peak_from_click (clickX : Option ℚ) (traceResolved : Bool)
    (raw : List (String × TraceData)) (existing : List Peak) : List Peak :=
  match selectPeakBody clickX traceResolved raw existing with
  | .ok peaks => peaks
  | .error _ => existing

/-- Number of records in the collection carrying a given comparison-group
label. -/
def countLabel (lbl : String) (l : List Peak) : ℕ :=
  l.countP (fun p => decide (p.frequency_label = lbl))

/-- Peak collections reachable from the initial empty store through
`select_peak_from_click` invocations. -/
inductive ReachablePeaks : List Peak → Prop where
  | nil : ReachablePeaks []
  | step (clickX : Option ℚ) (traceResolved : Bool)
      (raw : List (String × TraceData)) {s : List Peak} :
      ReachablePeaks s →
      ReachablePeaks (select_peak_from_click clickX traceResolved raw s)

/-- An FFT plot annotation (`{"freq": ..., "label": ...}` dictionaries of
`src/callbacks/annotation_callbacks.py`). -/
structure Ann where
  freq : ℚ
  label : String
deriving DecidableEq

/-- Sort key of `new_annotations.sort(key=lambda x: x["freq"])`: frequency
ascending. -/
def annOrder (a b : Ann) : Prop := a.freq ≤ b.freq

instance : DecidableRel annOrder :=
  fun a b => inferInstanceAs (Decidable (_ ≤ _))

/-- The stable sort of an annotation list by frequency. -/
def sortAnns (l : List Ann) : List Ann := List.insertionSort annOrder l

/-- One comma-separated token of the frequency text after `strip()`: empty
(the comprehension's `if f.strip()` filter drops it), a numeric literal with
value `q`, or text on which Python `float` raises `ValueError`. -/
inductive FreqCell where
  | blank
  | num (q : ℚ)
  | bad
deriving DecidableEq

/-- Models the comprehension `[float(f.strip()) for f in freq_input.split(",")
if f.strip()]` on line 47 of `src/callbacks/annotation_callbacks.py`: blank
tokens are dropped, a bad token raises `ValueError`. -/
def parseFreqs : List FreqCell → Except PyErr (List ℚ)
  | [] => .ok []
  | .blank :: rest => parseFreqs rest
  | .bad :: _ => .error .floatConv
  | .num q :: rest =>
      match parseFreqs rest with
      | .error e => .error e
      | .ok qs => .ok (q :: qs)

/-- Label handling of lines 56-62: with no label text auto-generate
`"F{i+1}"` for every frequency; otherwise pad the supplied labels with
`"F{i+1}"` for `i` from `len(labels)` to `len(freqs) - 1`. -/
def mkLabels (labelInput : Option (List String)) (nfreqs : ℕ) : List String :=
  match labelInput with
  | none => (List.range nfreqs).map (fun i => s!"F{i + 1}")
  | some ls =>
      if ls.length < nfreqs then
        ls ++ (List.range' ls.length (nfreqs - ls.length)).map (fun i => s!"F{i + 1}")
      else ls

/-- The add-annotation path of `manage_fft_annotations` (lines 45-78 of
`src/callbacks/annotation_callbacks.py`), after the initial guard (a click
happened and the frequency text is non-empty; the tab-switch branch is out of
scope).  `labelInput = none` models a falsy (absent or empty) label text.
Returns the stored annotation list and whether the invalid-format error
message was shown; on the error branch the callback returns
`current_annotations` unchanged. -/
def manage_fft_annotations (freqCells : List FreqCell)
    (labelInput : Option (List String)) (current : List Ann) :
    List Ann × Bool :=
  match parseFreqs freqCells with
  | .error _ => (current, true)
  | .ok freqs =>
      let labels := mkLabels labelInput freqs.length
      let added := (freqs.zip labels).map (fun p => Ann.mk p.1 p.2)
      (sortAnns (current ++ added), false)

/-- The harmonic label `f"{i}P"` of line 141. -/
def hpLabel (h : ℕ) : String := s!"{h}P"

/-- The duplicate test of lines 144-146: an annotation matches harmonic `h`
when its frequency is within `0.001` of `h·rpm/60` and its label equals
`"{h}P"` exactly. -/
def harmonicMatches (rpm : ℚ) (h : ℕ) (a : Ann) : Bool :=
  decide (|a.freq - rpm / 60 * h| < 1 / 1000) && (a.label == hpLabel h)

/-- The `for i in harmonics` loop of lines 139-149: each harmonic is checked
against `new_annotations`, i.e. the accumulator that already contains the
harmonics appended earlier in the same invocation. -/
def harmonicsLoop (rpm : ℚ) : List ℕ → List Ann → List Ann
  | [], acc => acc
  | h :: rest, acc =>
      let acc' :=
        if acc.any (harmonicMatches rpm h) then acc
        else acc ++ [⟨rpm / 60 * h, hpLabel h⟩]
      harmonicsLoop rpm rest acc'

/-- The hard-coded harmonic order set of line 135. -/
def defaultHarmonics : List ℕ := [1, 2, 3, 4, 6, 8, 9]

/-- The `generate_rotor_harmonics` callback (lines 123-160 of
`src/callbacks/annotation_callbacks.py`).  `none` models `PreventUpdate`
(no click, missing RPM, or RPM ≤ 0). -/
def generate_rotor_harmonics (n_clicks : ℕ) (rpm_value : Option ℚ)
    (current : List Ann) : Option (List Ann) :=
  match rpm_value with
  | none => none
  | some rpm =>
      if n_clicks = 0 ∨ rpm ≤ 0 then none
      else some (sortAnns (harmonicsLoop rpm defaultHarmonics current))

/-- Modelled from the spec: §4.6 exposes
`generate(fundamental_rpm, harmonic_orders, existing_annotations)` with an
explicit order set, which the source (`generate_rotor_harmonics`) does not —
it fixes `harmonics = [1, 2, 3, 4, 6, 8, 9]`.  Per the spec's words: compute
`h·(rpm/60)` labelled `"{h}P"` for each requested order, skip a harmonic when
an existing annotation already matches both frequency (within `1e-3`) and
label exactly, and re-sort the result by frequency ascending. -/
def generate_harmonics (rpm : ℚ) (orders : List ℕ) (existing : List Ann) :
    List Ann :=
  sortAnns (existing ++
    (orders.filter (fun h => !existing.any (harmonicMatches rpm h))).map
      (fun h => ⟨rpm / 60 * h, hpLabel h⟩))

/-- Elementwise differences `l[i+1] - l[i]`, models `np.diff`. -/
def diffQ (l : List ℚ) : List ℚ := List.zipWith (fun a b => b - a) l l.tail

/-- Models `np.median` on a 1-d array: sort ascending, take the middle element
(odd length) or the mean of the two middle elements (even length).  On the
empty array numpy yields NaN; the junk value 0 here is never reached under the
hypotheses of the theorems below. -/
def medianQ (l : List ℚ) : ℚ :=
  let s := List.insertionSort (· ≤ ·) l
  let n := l.length
  if n = 0 then 0
  else if n % 2 = 1 then s.getD (n / 2) 0
  else (s.getD (n / 2 - 1) 0 + s.getD (n / 2) 0) / 2

/-- Models `scipy.signal.detrend(y, type='linear')`: subtract the
least-squares line fitted against the sample index.  The claims below only
exercise `detrend = False`, so this definition is not load-bearing. -/
def detrendLinear (y : List ℚ) : List ℚ :=
  let n : ℚ := y.length
  let idx := List.range y.length
  let sx : ℚ := (idx.map (fun i => (i : ℚ))).sum
  let sy := y.sum
  let sxx : ℚ := (idx.map (fun i => (i : ℚ) ^ 2)).sum
  let sxy : ℚ := (List.zipWith (fun v i => v * (i : ℚ)) y idx).sum
  let den := n * sxx - sx ^ 2
  let b := if den = 0 then 0 else (n * sxy - sx * sy) / den
  let a := if n = 0 then 0 else (sy - b * sx) / n
  List.zipWith (fun v i => v - (a + b * (i : ℚ))) y idx

/-- The k-th coefficient of the discrete Fourier transform of a real
sequence. -/
noncomputable def dftCoefR (y : List ℝ) (k : ℕ) : ℂ :=
  ((List.range y.length).map (fun j =>
    ((y.getD j 0 : ℝ) : ℂ) *
      Complex.exp (-(((2 * Real.pi * j * k / y.length : ℝ)) : ℂ) * Complex.I))).sum

/-- The k-th DFT coefficient of a rational sequence (`scipy.fft.rfft` entry). -/
noncomputable def dftCoef (y : List ℚ) (k : ℕ) : ℂ :=
  dftCoefR (y.map (fun q => (q : ℝ))) k

/-- Models `scipy.fft.rfft`: the one-sided DFT, bins `0 .. n/2`. -/
noncomputable def rfft (y : List ℚ) : List ℂ :=
  (List.range (y.length / 2 + 1)).map (dftCoef y)

/-- Result class `FFTResult` of `src/tools/fft_analysis.py` (the `info`
dictionary carries only reporting metadata and is not modelled). -/
structure FFTResult where
  freq : List ℝ
  amplitude : List ℝ
  df : ℝ
  fmax : ℝ

/-- The `perform_fft` function (lines 20-65 of `src/tools/fft_analysis.py`):
`dt = median(diff(t))`, optional linear detrend, one-sided DFT with frequency
bins `scipy.fft.rfftfreq(n, dt) = k/(n·dt)` and amplitude `|rfft(y)|·2/n`. -/
noncomputable def perform_fft (t y : List ℚ) (detrend : Bool) : FFTResult :=
  let dt : ℚ := medianQ (diffQ t)
  let yd := if detrend then detrendLinear y else y
  let n := yd.length
  let yf := rfft yd
  let freq : List ℝ := (List.range (n / 2 + 1)).map (fun (k : ℕ) => (k : ℝ) / ((n : ℝ) * (dt : ℝ)))
  let amplitude := yf.map (fun c => Complex.abs c * 2 / (n : ℝ))
  { freq := freq
    amplitude := amplitude
    df := if 1 < freq.length then freq.getD 1 0 - freq.getD 0 0 else 0
    fmax := freq.getLastD 0 }

/-- Python-style floating modulus `x - y·⌊x/y⌋` (`np.mod`). -/
noncomputable def pymodReal (x y : ℝ) : ℝ := x - y * ⌊x / y⌋

/-- The phase correction `np.unwrap` adds for a single difference `dd` of
adjacent phase samples (default `discont = π`). -/
noncomputable def unwrapStep (dd : ℝ) : ℝ :=
  let m := pymodReal (dd + Real.pi) (2 * Real.pi) - Real.pi
  let m := if m = -Real.pi ∧ 0 < dd then Real.pi else m
  if |dd| < Real.pi then 0 else m - dd

/-- Accumulating pass of `np.unwrap`: `prev` is the previous original sample
and `acc` the correction accumulated so far. -/
noncomputable def unwrapGo (prev acc : ℝ) : List ℝ → List ℝ
  | [] => []
  | p :: ps =>
      let acc' := acc + unwrapStep (p - prev)
      (p + acc') :: unwrapGo p acc' ps

/-- Models `np.unwrap` on a phase sequence. -/
noncomputable def unwrap : List ℝ → List ℝ
  | [] => []
  | p :: ps => p :: unwrapGo p 0 ps

/-- Result class `PhaseFFTResult` of `src/tools/phase_analysis.py`. -/
structure PhaseFFTResult where
  freq : List ℝ
  magnitude : List ℝ
  phase : List ℝ
  df : ℝ
  fmax : ℝ

/-- The `perform_phase_fft` function (lines 21-70 of
`src/tools/phase_analysis.py`): like `perform_fft` but also returning
`unwrap(angle(rfft(y)))` as phase. -/
noncomputable def perform_phase_fft (t y : List ℚ) (detrend : Bool) : PhaseFFTResult :=
  let dt : ℚ := medianQ (diffQ t)
  let yd := if detrend then detrendLinear y else y
  let n := yd.length
  let yf := rfft yd
  let freq : List ℝ := (List.range (n / 2 + 1)).map (fun (k : ℕ) => (k : ℝ) / ((n : ℝ) * (dt : ℝ)))
  let magnitude := yf.map (fun c => Complex.abs c * 2 / (n : ℝ))
  { freq := freq
    magnitude := magnitude
    phase := unwrap (yf.map Complex.arg)
    df := if 1 < freq.length then freq.getD 1 0 - freq.getD 0 0 else 0
    fmax := freq.getLastD 0 }

/-- Models the window-coefficient lookup of `perform_welch` (lines 102-110 of
`src/tools/fft_analysis.py`); unknown kinds fall back to
`scipy.signal.get_window`, modelled as a boxcar since no theorem below
depends on window coefficient values. -/
noncomputable def windowCoeffs (kind : String) (m : ℕ) : List ℝ :=
  if kind = "hamming" then
    (List.range m).map (fun i => 0.54 - 0.46 * Real.cos (2 * Real.pi * i / ((m : ℝ) - 1)))
  else if kind = "hann" then
    (List.range m).map (fun i => 0.5 * (1 - Real.cos (2 * Real.pi * i / ((m : ℝ) - 1))))
  else List.replicate m 1

/-- Segment start offsets used by `scipy.signal.welch` with
`noverlap = nperseg // 2`. -/
def segStarts (len nperseg : ℕ) : List ℕ :=
  let step := nperseg - nperseg / 2
  if nperseg = 0 ∨ len < nperseg then []
  else (List.range ((len - nperseg) / step + 1)).map (fun i => i * step)

/-- The `perform_welch` function (lines 67-132 of `src/tools/fft_analysis.py`)
with its `scipy.signal.welch` call modelled as the mean of modified
periodograms over 50%-overlapping windowed segments, density scaling, and
`amplitude = sqrt(PSD)`.  No theorem below depends on the spectral values. -/
noncomputable def perform_welch (t y : List ℚ) (nperseg : ℕ) (window : String)
    (detrend : Bool) : FFTResult :=
  let dt : ℚ := medianQ (diffQ t)
  let fs : ℝ := 1 / (dt : ℝ)
  let win := windowCoeffs window nperseg
  let winNormSq : ℝ := (win.map (fun w => w ^ 2)).sum
  let nbins := nperseg / 2 + 1
  let segs := (segStarts y.length nperseg).map (fun s0 => (y.drop s0).take nperseg)
  let segs := segs.map (fun seg => if detrend then detrendLinear seg else seg)
  let pxx : ℕ → ℝ := fun k =>
    let vals := segs.map (fun seg =>
      Complex.abs (dftCoefR (List.zipWith (fun (w : ℝ) (v : ℚ) => w * (v : ℝ)) win seg) k) ^ 2 /
        (fs * winNormSq))
    (vals.sum / (segs.length : ℝ)) *
      (if k = 0 ∨ (nperseg % 2 = 0 ∧ k = nperseg / 2) then 1 else 2)
  let freq : List ℝ := (List.range nbins).map (fun (k : ℕ) => (k : ℝ) / ((nperseg : ℝ) * (dt : ℝ)))
  let amplitude := (List.range nbins).map (fun k => Real.sqrt (pxx k))
  { freq := freq
    amplitude := amplitude
    df := if 1 < freq.length then freq.getD 1 0 - freq.getD 0 0 else 0
    fmax := freq.getLastD 0 }

/-- Bin edge `i` of the logarithmic binning: entry `i` of
`10**np.linspace(log_f_min, log_f_max, num_bins + 1)` (lines 182-186 of
`src/tools/fft_analysis.py`). -/
noncomputable def binEdge (lmin lmax : ℝ) (nb i : ℕ) : ℝ :=
  (10 : ℝ) ^ (lmin + (i : ℝ) * (lmax - lmin) / (nb : ℝ))

/-- Bin centre `i`: `10**(0.5·(log_bins[i] + log_bins[i+1]))` (lines 183-187). -/
noncomputable def binCenter (lmin lmax : ℝ) (nb i : ℕ) : ℝ :=
  (10 : ℝ) ^ ((lmin + (i : ℝ) * (lmax - lmin) / (nb : ℝ) +
    (lmin + ((i : ℝ) + 1) * (lmax - lmin) / (nb : ℝ))) / 2)

/-- Membership of a frequency in bin `i`: the mask
`(freq >= left) & (freq < right)` of line 194. -/
noncomputable def binPred (lmin lmax : ℝ) (nb i : ℕ) (x : ℝ) : Bool :=
  decide (binEdge lmin lmax nb i ≤ x ∧ x < binEdge lmin lmax nb (i + 1))

/-- Number of samples whose frequency falls in bin `i` (`np.sum(mask)`,
line 197). -/
noncomputable def binCnt (lmin lmax : ℝ) (nb : ℕ) (pairs : List (ℝ × ℝ)) (i : ℕ) : ℕ :=
  pairs.countP (fun q => binPred lmin lmax nb i q.1)

/-- Mean power of bin `i` (`np.mean(psd[mask])`, line 196), 0 for an empty
bin (the initial `np.zeros_like` value of line 190). -/
noncomputable def binVal (lmin lmax : ℝ) (nb : ℕ) (pairs : List (ℝ × ℝ)) (i : ℕ) : ℝ :=
  if 0 < binCnt lmin lmax nb pairs i then
    ((pairs.filter (fun q => binPred lmin lmax nb i q.1)).map (fun q => q.2)).sum /
      (binCnt lmin lmax nb pairs i : ℝ)
  else 0

/-- The per-bin (centre, mean power, sample count) triples of the loop on
lines 193-197. -/
noncomputable def binTriples (lmin lmax : ℝ) (nb : ℕ) (pairs : List (ℝ × ℝ)) :
    List (ℝ × ℝ × ℕ) :=
  (List.range nb).map (fun i =>
    (binCenter lmin lmax nb i, binVal lmin lmax nb pairs i, binCnt lmin lmax nb pairs i))

/-- Core of `perform_binning` after the DC strip (lines 168-209 of
`src/tools/fft_analysis.py`).  `dc` is the preserved zero-frequency sample
(prepended with count 1 as on lines 199-204, before the `bin_counts > 0`
filter of lines 206-209).  The `.error` branch models IEEE semantics: when
the minimum remaining frequency is `≤ 0`, `np.log10` yields `-inf`/`nan`,
`num_decades` becomes `nan` or `inf`, and
`int(np.ceil(num_decades * bins_per_decade))` raises
(`ValueError`/`OverflowError`). -/
noncomputable def binningCore (dc : Option (ℝ × ℝ)) (freq psd : List ℝ) (b : ℕ) :
    Except PyErr (List ℝ × List ℝ) :=
  match freq with
  | [] => .ok ([], [])
  | fh :: ftl =>
      if ftl.foldl min fh ≤ 0 then .error .floatConv
      else
        let lmin := Real.logb 10 (ftl.foldl min fh)
        let lmax := Real.logb 10 (ftl.foldl max fh)
        let nbz : ℤ := ⌈(lmax - lmin) * (b : ℝ)⌉
        let nb : ℕ := if nbz < 1 then 1 else nbz.toNat
        let triples := binTriples lmin lmax nb ((fh :: ftl).zip psd)
        let triples :=
          match dc with
          | some (fz, pz) => (fz, pz, 1) :: triples
          | none => triples
        let kept := triples.filter (fun tr => decide (0 < tr.2.2))
        .ok (kept.map (fun tr => tr.1), kept.map (fun tr => tr.2.1))

/-- The `perform_binning` function (lines 134-211 of
`src/tools/fft_analysis.py`): empty inputs yield empty outputs, a leading zero
frequency is stripped and preserved, the rest is averaged into logarithmic
bins and empty bins are dropped. -/
noncomputable def perform_binning (freq psd : List ℝ) (b : ℕ) :
    Except PyErr (List ℝ × List ℝ) :=
  match freq, psd with
  | [], _ => .ok ([], [])
  | _, [] => .ok ([], [])
  | f0 :: ftl, p0 :: ptl =>
      if f0 = 0 then binningCore (some (f0, p0)) ftl ptl b
      else binningCore none (f0 :: ftl) (p0 :: ptl) b

/-- One DataFrame column: numeric (entries possibly NaN) or non-numeric
(object dtype, e.g. strings). -/
inductive Column where
  | nums (vals : List (Option ℚ))
  | strs (vals : List String)

/-- Number of entries in a column. -/
def Column.size : Column → ℕ
  | nums v => v.length
  | strs v => v.length

/-- A DataFrame restricted to the two columns the spectral code reads: the
time column and the requested signal column.  (The missing-column `KeyError`
branches are outside this model: a `Frame` always carries both columns.) -/
structure Frame where
  time : Column
  signal : Column

/-- Build a numeric frame from (time, signal) rows. -/
def mkNumFrame (rows : List (Option ℚ × Option ℚ)) : Frame :=
  ⟨.nums (rows.map (fun r => r.1)), .nums (rows.map (fun r => r.2))⟩

/-- The pandas boolean mask of lines 245-250 of `src/tools/fft_analysis.py`
(identical to lines 109-114 of `src/tools/phase_analysis.py`) applied to one
row: `(time ≥ start) & (time ≤ end)` with absent bounds skipped; comparisons
against NaN are false. -/
def maskTime (tv : Option ℚ) (s e : Option ℚ) : Bool :=
  (match s with
   | none => true
   | some sv => match tv with
     | none => false
     | some tq => decide (sv ≤ tq)) &&
  (match e with
   | none => true
   | some ev => match tv with
     | none => false
     | some tq => decide (tq ≤ ev))

/-- Keep a row only when both its time and its signal value are non-NaN. -/
def liftPair : Option ℚ × Option ℚ → Option (ℚ × ℚ)
  | (some a, some b) => some (a, b)
  | _ => none

/-- The shared preprocessing stage of `compute_fft` (lines 244-271 of
`src/tools/fft_analysis.py`) and `compute_phase_fft` (lines 108-133 of
`src/tools/phase_analysis.py`): time-range filter (only when a bound is
given), NaN removal, the `len < 2` check, and the `2^n_exp` truncation. -/
def preprocess (rows : List (Option ℚ × Option ℚ)) (start_time end_time : Option ℚ)
    (n_exp : Option ℕ) : Except PyErr (List ℚ × List ℚ) :=
  let data :=
    if start_time.isSome ∨ end_time.isSome then
      rows.filter (fun r => maskTime r.1 start_time end_time)
    else rows
  let cleaned := data.filterMap liftPair
  if cleaned.length < 2 then .error .valueInsufficient
  else
    let k :=
      match n_exp with
      | some ex => min (2 ^ ex) cleaned.length
      | none => cleaned.length
    .ok ((cleaned.take k).map (fun p => p.1), (cleaned.take k).map (fun p => p.2))

/-- The `compute_fft` function (lines 213-307 of `src/tools/fft_analysis.py`).
It has no explicit empty-table or dtype check: a non-numeric column makes
numpy raise `TypeError` from `np.isnan` (or pandas from the bound comparison),
modelled by the `.typeErr` branch, and an empty table falls through to the
data-insufficiency `ValueError` of the preprocessing stage.  `df := 0` in the
binning branch models the `np.nan` the source stores there.  A Python
`n_exp` of 0 is falsy, so the Welch branch's `2**(n_exp or 8)` uses 8. -/
noncomputable def compute_fft (fr : Frame) (start_time end_time : Option ℚ)
    (averaging windowing : String) (detrend : Bool) (n_exp : Option ℕ)
    (bins_per_decade : ℕ) : Except PyErr FFTResult :=
  match fr.time, fr.signal with
  | .nums tv, .nums yv =>
      match preprocess (tv.zip yv) start_time end_time n_exp with
      | .error e => .error e
      | .ok (t, y) =>
          if averaging.toLower = "none" then .ok (perform_fft t y detrend)
          else if averaging.toLower = "welch" then
            let ex := match n_exp with
              | some e0 => if e0 = 0 then 8 else e0
              | none => 8
            let nperseg := min (2 ^ ex) (y.length / 2)
            .ok (perform_welch t y nperseg windowing detrend)
          else if averaging.toLower = "binning" then
            let base := perform_fft t y detrend
            match perform_binning base.freq (base.amplitude.map (fun a => a ^ 2))
                bins_per_decade with
            | .error e => .error e
            | .ok (bf, ba) =>
                match bf.getLast? with
                | none => .error .indexErr
                | some fm =>
                    .ok { freq := bf, amplitude := ba.map Real.sqrt, df := 0, fmax := fm }
          else .error .valueUnknownAveraging
  | _, _ => .error .typeErr

/-- The `compute_phase_fft` function (lines 72-147 of
`src/tools/phase_analysis.py`): explicit empty-table check
(`ValueError "Input DataFrame is empty"`), explicit dtype check
(`TypeError "Non-numeric data found in columns"`), then the shared
preprocessing stage and the phase transform. -/
noncomputable def compute_phase_fft (fr : Frame) (start_time end_time : Option ℚ)
    (n_exp : Option ℕ) (detrend : Bool) : Except PyErr PhaseFFTResult :=
  if fr.time.size = 0 then .error .valueEmpty
  else
    match fr.time, fr.signal with
    | .nums tv, .nums yv =>
        match preprocess (tv.zip yv) start_time end_time n_exp with
        | .error e => .error e
        | .ok (t, y) => .ok (perform_phase_fft t y detrend)
    | _, _ => .error .typeErr

instance : IsTotal Ann annOrder :=
  ⟨fun a b => le_total a.freq b.freq⟩

instance : IsTrans Ann annOrder :=
  ⟨fun _ _ _ hab hbc => le_trans hab hbc⟩

/-- The stable annotation sort is a permutation of its input. -/
theorem sortAnns_perm (l : List Ann) : (sortAnns l).Perm l :=
  List.perm_insertionSort annOrder l

/-- The stable annotation sort is sorted by frequency. -/
theorem sortAnns_sorted (l : List Ann) : List.Sorted annOrder (sortAnns l) :=
  List.sorted_insertionSort annOrder l

/-- Auto-generated labels: position `j ≥ len(labels)` of the padded label list
carries the label `"F{j+1}"`. -/
theorem mkLabels_pad (labels : List String) (nfreqs j : ℕ)
    (h1 : labels.length ≤ j) (h2 : j < nfreqs) :
    (mkLabels (some labels) nfreqs).getD j "" = s!"F{j + 1}" := by
  have hlt : labels.length < nfreqs := lt_of_le_of_lt h1 h2
  have hj : j - labels.length < nfreqs - labels.length := by omega
  simp only [mkLabels, if_pos hlt]
  rw [List.getD_eq_getElem?_getD, List.getElem?_append_right h1, List.getElem?_map,
    List.getElem?_range' _ _ hj]
  simp only [Option.map_some', Option.getD_some]
  have hs : labels.length + 1 * (j - labels.length) + 1 = j + 1 := by omega
  rw [hs]

/-- C7: invalid frequency text is reported and leaves the stored annotations
unchanged; on a successful parse the stored list is the old list merged with
one entry per parsed frequency (labels padded with auto-generated `"F{n}"`
entries when fewer labels than frequencies are supplied), re-sorted ascending
by frequency. -/
theorem manage_fft_annotations_spec :
    (∀ cells labelInput current e, parseFreqs cells = .error e →
      manage_fft_annotations cells labelInput current = (current, true)) ∧
    (∀ labels nfreqs j, labels.length ≤ j → j < nfreqs →
      (mkLabels (some labels) nfreqs).getD j "" = s!"F{j + 1}") ∧
    (∀ cells freqs labelInput current, parseFreqs cells = .ok freqs →
      (manage_fft_annotations cells labelInput current).2 = false ∧
      (manage_fft_annotations cells labelInput current).1.Perm
        (current ++ (freqs.zip (mkLabels labelInput freqs.length)).map
          (fun p => Ann.mk p.1 p.2)) ∧
      List.Sorted annOrder (manage_fft_annotations cells labelInput current).1) := by
  refine ⟨?_, mkLabels_pad, ?_⟩
  · intro cells labelInput current e h
    simp [manage_fft_annotations, h]
  · intro cells freqs labelInput current h
    refine ⟨?_, ?_, ?_⟩
    · simp [manage_fft_annotations, h]
    · simp only [manage_fft_annotations, h]
      exact sortAnns_perm _
    · simp only [manage_fft_annotations, h]
      exact sortAnns_sorted _

/-- Closed instance of the C7 theorem: a bad token reports an error with the
annotation store untouched, and a two-frequency one-label input auto-labels
the second frequency `"F2"` and re-sorts. -/
theorem manage_fft_annotations_spec_witness :
    manage_fft_annotations [.num 3, .bad] (some ["a"]) [⟨1, "x"⟩] = ([⟨1, "x"⟩], true) ∧
    (mkLabels (some ["a"]) 2).getD 1 "" = "F2" ∧
    (manage_fft_annotations [.num 20, .blank, .num (21/2)] (some ["a"]) [⟨1, "x"⟩]).1.Perm
      ([⟨1, "x"⟩] ++ ([(20 : ℚ), 21/2].zip (mkLabels (some ["a"]) 2)).map
        (fun p => Ann.mk p.1 p.2)) := by
  refine ⟨manage_fft_annotations_spec.1 [.num 3, .bad] (some ["a"]) [⟨1, "x"⟩] .floatConv rfl,
    manage_fft_annotations_spec.2.1 ["a"] 2 1 (by decide) (by decide), ?_⟩
  exact (manage_fft_annotations_spec.2.2 [.num 20, .blank, .num (21/2)]
    [(20 : ℚ), 21/2] (some ["a"]) [⟨1, "x"⟩] rfl).2.1

/-- The source's duplicate check runs against the growing accumulator, but
when the labels of the pending orders are distinct from each other and from
the labels already appended, it is equivalent to checking against the original
annotation list only, which is what the spec describes. -/
theorem harmonicsLoop_eq (rpm : ℚ) (orders : List ℕ) :
    ∀ (existing extra : List Ann),
    (∀ a ∈ extra, ∀ h ∈ orders, a.label ≠ hpLabel h) →
    List.Pairwise (fun h h' => hpLabel h ≠ hpLabel h') orders →
    harmonicsLoop rpm orders (existing ++ extra) =
      existing ++ extra ++
        (orders.filter (fun h => !(existing.any (harmonicMatches rpm h)))).map
          (fun h => ⟨rpm / 60 * h, hpLabel h⟩) := by
  induction orders with
  | nil => intro existing extra _ _; simp [harmonicsLoop]
  | cons h rest ih =>
    intro existing extra hx hp
    have hextra : extra.any (harmonicMatches rpm h) = false := by
      simp only [List.any_eq_false]
      intro a ha
      have hne := hx a ha h (List.mem_cons_self h rest)
      simp [harmonicMatches, hne]
    simp only [harmonicsLoop, List.any_append, hextra, Bool.or_false]
    by_cases hc : existing.any (harmonicMatches rpm h) = true
    · rw [if_pos hc]
      have := ih existing extra
        (fun a ha h' hh' => hx a ha h' (List.mem_cons_of_mem h hh'))
        (List.pairwise_cons.mp hp).2
      rw [this, List.filter_cons_of_neg (by simp [hc])]
    · rw [if_neg hc]
      have hx' : ∀ a ∈ extra ++ [(⟨rpm / 60 * h, hpLabel h⟩ : Ann)],
          ∀ h' ∈ rest, a.label ≠ hpLabel h' := by
        intro a ha h' hh'
        rcases List.mem_append.mp ha with ha1 | ha2
        · exact hx a ha1 h' (List.mem_cons_of_mem h hh')
        · have : a = (⟨rpm / 60 * h, hpLabel h⟩ : Ann) := by simpa using ha2
          rw [this]

          exact (List.pairwise_cons.mp hp).1 h' hh'
      have := ih existing (extra ++ [⟨rpm / 60 * h, hpLabel h⟩]) hx'
        (List.pairwise_cons.mp hp).2
      rw [← List.append_assoc] at this
      rw [this, List.filter_cons_of_pos (by simp [hc])]
      simp [List.append_assoc]

unseal Rat.mul Rat.add Rat.sub Rat.inv in
/-- C6: the spec-level harmonic generator yields exactly 1P and 2P for 60 RPM
with orders {1, 2}; re-invoking with an existing 1P entry does not duplicate
it; the result is sorted ascending by frequency; and the source callback
coincides with the spec-level generator at its hard-coded order set
{1, 2, 3, 4, 6, 8, 9}. -/
theorem generate_harmonics_spec :
    generate_harmonics 60 [1, 2] [] = [⟨1, "1P"⟩, ⟨2, "2P"⟩] ∧
    generate_harmonics 60 [1, 2] [⟨1, "1P"⟩] = [⟨1, "1P"⟩, ⟨2, "2P"⟩] ∧
    (∀ rpm orders existing, List.Sorted annOrder (generate_harmonics rpm orders existing)) ∧
    (∀ n_clicks rpm current, n_clicks ≠ 0 → 0 < rpm →
      generate_rotor_harmonics n_clicks (some rpm) current =
        some (generate_harmonics rpm defaultHarmonics current)) := by
  refine ⟨by decide, by decide, fun rpm orders existing => sortAnns_sorted _, ?_⟩
  intro n_clicks rpm current hn hr
  simp only [generate_rotor_harmonics]
  rw [if_neg (by push_neg; exact ⟨hn, hr⟩)]
  have hloop := harmonicsLoop_eq rpm defaultHarmonics current [] (by simp) (by decide)
  rw [List.append_nil] at hloop
  rw [generate_harmonics, hloop]

/-- Closed instance of the C6 theorem: the source callback at 60 RPM with an
existing 1P annotation equals the spec-level generator at the default order
set. -/
theorem generate_harmonics_spec_witness :
    generate_rotor_harmonics 1 (some 60) [⟨1, "1P"⟩] =
      some (generate_harmonics 60 defaultHarmonics [⟨1, "1P"⟩]) :=
  generate_harmonics_spec.2.2.2 1 60 [⟨1, "1P"⟩] (by decide) (by decide)

instance {ε α : Type _} [DecidableEq ε] [DecidableEq α] : DecidableEq (Except ε α)
  | .ok a, .ok b =>
    if h : a = b then isTrue (by rw [h]) else isFalse (fun c => h (Except.ok.inj c))
  | .error a, .error b =>
    if h : a = b then isTrue (by rw [h]) else isFalse (fun c => h (Except.error.inj c))
  | .ok _, .error _ => isFalse (fun c => Except.noConfusion c)
  | .error _, .ok _ => isFalse (fun c => Except.noConfusion c)

/-- The claim-side time-window predicate: `start ≤ t ∧ t ≤ end`, inclusive at
both ends, with absent bounds imposing no constraint. -/
def inWindowSpec (s e : Option ℚ) (tq : ℚ) : Bool :=
  (match s with
   | none => true
   | some sv => decide (sv ≤ tq)) &&
  (match e with
   | none => true
   | some ev => decide (tq ≤ ev))

/-- On a non-NaN time value the pandas mask agrees with the claim-side window
predicate. -/
theorem maskTime_some (tq : ℚ) (s e : Option ℚ) :
    maskTime (some tq) s e = inWindowSpec s e tq := by
  cases s <;> cases e <;> rfl

/-- Applying the pandas mask before NaN removal is the same as removing NaN
rows first and then filtering by the inclusive window: rows masked out by a
NaN time comparison are dropped by the NaN filter anyway. -/
theorem filterMap_filter_mask (rows : List (Option ℚ × Option ℚ)) (s e : Option ℚ) :
    (rows.filter (fun r => maskTime r.1 s e)).filterMap liftPair =
      (rows.filterMap liftPair).filter (fun p => inWindowSpec s e p.1) := by
  induction rows with
  | nil => rfl
  | cons r rest ih =>
    rcases r with ⟨tv, yv⟩
    cases tv with
    | none =>
      by_cases hm : maskTime none s e = true <;>
        simp [List.filter_cons, hm, liftPair, ih]
    | some tq =>
      cases yv with
      | none =>
        by_cases hm : maskTime (some tq) s e = true <;>
          simp [List.filter_cons, hm, liftPair, ih]
      | some yq =>
        by_cases hm : maskTime (some tq) s e = true
        · have hw : inWindowSpec s e tq = true := by rw [← maskTime_some tq s e]; exact hm
          simp [List.filter_cons, hm, liftPair, hw, ih]
        · have hw : inWindowSpec s e tq = false := by
            rw [← maskTime_some tq s e]; exact Bool.eq_false_iff.mpr hm
          simp [List.filter_cons, hm, liftPair, hw, ih]

/-- The rows the preprocessing stage works with after windowing and NaN
removal, in the claim's terms. -/
def keptRows (rows : List (Option ℚ × Option ℚ)) (s e : Option ℚ) : List (ℚ × ℚ) :=
  (rows.filterMap liftPair).filter (fun p => inWindowSpec s e p.1)

/-- The truncation length of the claim: `min (2^n_exp) len` when `n_exp` is
given, `len` otherwise. -/
def truncCount (nExp : Option ℕ) (len : ℕ) : ℕ :=
  match nExp with
  | some ex => min (2 ^ ex) len
  | none => len

/-- The implementation's candidate row set equals `keptRows`. -/
theorem cleaned_eq (rows : List (Option ℚ × Option ℚ)) (s e : Option ℚ) :
    (if s.isSome ∨ e.isSome then rows.filter (fun r => maskTime r.1 s e)
     else rows).filterMap liftPair = keptRows rows s e := by
  by_cases h : s.isSome ∨ e.isSome
  · rw [if_pos h]; exact filterMap_filter_mask rows s e
  · rw [if_neg h]
    push_neg at h
    obtain ⟨h1, h2⟩ := h
    have hs : s = none := Option.not_isSome_iff_eq_none.mp (by simpa using h1)
    have he : e = none := Option.not_isSome_iff_eq_none.mp (by simpa using h2)
    subst hs; subst he
    unfold keptRows
    rw [← filterMap_filter_mask rows none none]
    congr 1
    exact (List.filter_eq_self.mpr (fun r _ => by cases r.1 <;> rfl)).symm

/-- C8: preprocessing retains exactly the rows inside the inclusive time
window, then drops rows with a NaN time or value; it fails with the
data-insufficiency error exactly when fewer than 2 valid rows remain, and
otherwise returns the first `min(2^n_exp, len)` retained rows (no padding). -/
theorem preprocess_retention_spec (rows : List (Option ℚ × Option ℚ))
    (s e : Option ℚ) (nExp : Option ℕ) :
    ((∃ er, preprocess rows s e nExp = .error er) ↔ (keptRows rows s e).length < 2) ∧
    (2 ≤ (keptRows rows s e).length →
      preprocess rows s e nExp = .ok
        (((keptRows rows s e).take (truncCount nExp (keptRows rows s e).length)).map
            (fun p => p.1),
          ((keptRows rows s e).take (truncCount nExp (keptRows rows s e).length)).map
            (fun p => p.2))) := by
  have hc := cleaned_eq rows s e
  constructor
  · constructor
    · rintro ⟨er, her⟩
      simp only [preprocess] at her
      rw [hc] at her
      by_cases h2 : (keptRows rows s e).length < 2
      · exact h2
      · rw [if_neg h2] at her
        exact absurd her (by simp)
    · intro h2
      refine ⟨.valueInsufficient, ?_⟩
      simp only [preprocess]
      rw [hc, if_pos h2]
  · intro h2
    simp only [preprocess]
    rw [hc, if_neg (not_lt.mpr h2)]
    rfl

/-- Closed instance of the C8 theorem: a window `[0, 5]` over four rows (one
NaN value, one out of window) keeps two rows, and `n_exp = 0` truncates to the
first `min(2^0, 2) = 1` of them. -/
theorem preprocess_retention_spec_witness :
    2 ≤ (keptRows [(some 0, some 1), (some 1, none), (some 2, some 3), (some 10, some 4)]
          (some 0) (some 5)).length ∧
    preprocess [(some 0, some 1), (some 1, none), (some 2, some 3), (some 10, some 4)]
        (some 0) (some 5) (some 0) =
      .ok ([(0 : ℚ)], [(1 : ℚ)]) := by
  refine ⟨by decide, ?_⟩
  have h := (preprocess_retention_spec [(some 0, some 1), (some 1, none), (some 2, some 3),
    (some 10, some 4)] (some 0) (some 5) (some 0)).2 (by decide)
  rw [h]
  decide

/-- C1 (divergence record): the spec and the repository's own test
`test_compute_fft_edge_cases` expect `compute_fft` on an empty table to fail
with the empty-input error, but the source raises the data-insufficiency
error there (it has no empty-table check); `compute_phase_fft` behaves as
specified in all three cases, and `compute_fft` agrees on the single-row and
non-numeric cases. -/
theorem compute_spectrum_error_divergence :
    compute_fft (mkNumFrame []) none none "None" "hamming" false none 10 =
      .error .valueInsufficient ∧
    compute_phase_fft (mkNumFrame []) none none none false = .error .valueEmpty ∧
    compute_fft (mkNumFrame [(some 0, some 1)]) none none "None" "hamming" false none 10 =
      .error .valueInsufficient ∧
    compute_phase_fft (mkNumFrame [(some 0, some 1)]) none none none false =
      .error .valueInsufficient ∧
    compute_fft ⟨.strs ["a", "b", "c"], .strs ["x", "y", "z"]⟩ none none "None" "hamming"
        false none 10 = .error .typeErr ∧
    compute_phase_fft ⟨.strs ["a", "b", "c"], .strs ["x", "y", "z"]⟩ none none none false =
      .error .typeErr ∧
    PyErr.valueInsufficient ≠ PyErr.valueEmpty :=
  ⟨rfl, rfl, rfl, rfl, rfl, rfl, by decide⟩

/-- For an in-bounds index, `getD` is the list element. -/
theorem getD_of_lt {α : Type _} (l : List α) (n : ℕ) (d : α) (h : n < l.length) :
    l.getD n d = l[n] := by
  rw [List.getD_eq_getElem?_getD, List.getElem?_eq_getElem h, Option.getD_some]

/-- The scan `argminGo` either keeps the carried best index (when the carried
best is a lower bound of the remaining list) or returns an offset into the
remaining list holding a minimum of it that also improves on the carried
best. -/
theorem argminGo_spec (xs : List ℚ) :
    ∀ (best : ℚ) (bi i : ℕ),
    (argminGo best bi i xs = bi ∧ ∀ x ∈ xs, best ≤ x) ∨
    (∃ j, j < xs.length ∧ argminGo best bi i xs = i + j ∧
      xs.getD j 0 ≤ best ∧ ∀ x ∈ xs, xs.getD j 0 ≤ x) := by
  induction xs with
  | nil =>
    intro best bi i
    left
    exact ⟨rfl, by simp⟩
  | cons x xs ih =>
    intro best bi i
    by_cases hx : x < best
    · rcases ih x i (i + 1) with ⟨heq, hall⟩ | ⟨j, hj, heq, hle, hall⟩
      · right
        refine ⟨0, by simp, ?_, by simp [le_of_lt hx], ?_⟩
        · simp only [argminGo, if_pos hx, heq, Nat.add_zero]
        · intro y hy
          rw [List.getD_cons_zero]
          rcases List.mem_cons.mp hy with h | h
          · rw [h]
          · exact hall y h
      · right
        refine ⟨j + 1, by simpa using hj, ?_, ?_, ?_⟩
        · simp only [argminGo, if_pos hx, heq]
          omega
        · rw [List.getD_cons_succ]
          exact le_trans hle (le_of_lt hx)
        · intro y hy
          rw [List.getD_cons_succ]
          rcases List.mem_cons.mp hy with h | h
          · rw [h]; exact hle
          · exact hall y h
    · rcases ih best bi (i + 1) with ⟨heq, hall⟩ | ⟨j, hj, heq, hle, hall⟩
      · left
        refine ⟨by simp only [argminGo, if_neg hx, heq], ?_⟩
        intro y hy
        rcases List.mem_cons.mp hy with h | h
        · rw [h]; exact not_lt.mp hx
        · exact hall y h
      · right
        refine ⟨j + 1, by simpa using hj, ?_, ?_, ?_⟩
        · simp only [argminGo, if_neg hx, heq]
          omega
        · rw [List.getD_cons_succ]
          exact hle
        · intro y hy
          rw [List.getD_cons_succ]
          rcases List.mem_cons.mp hy with h | h
          · rw [h]; exact le_trans hle (not_lt.mp hx)
          · exact hall y h

/-- `argmin` returns an in-bounds index of a minimum of the list (the model of
`np.argmin`). -/
theorem argmin_spec (l : List ℚ) (idx : ℕ) (h : argmin l = some idx) :
    idx < l.length ∧ ∀ j, j < l.length → l.getD idx 0 ≤ l.getD j 0 := by
  match l with
  | x :: xs =>
    have h' : argminGo x 0 1 xs = idx := by simpa [argmin] using h
    rcases argminGo_spec xs x 0 1 with ⟨heq, hall⟩ | ⟨j, hj, heq, hle, hall⟩
    · rw [heq] at h'
      subst h'
      refine ⟨by simp, ?_⟩
      intro j hj
      rw [List.getD_cons_zero]
      match j with
      | 0 => rw [List.getD_cons_zero]
      | k + 1 =>
        rw [List.getD_cons_succ]
        have hk : k < xs.length := by simpa using hj
        rw [getD_of_lt _ _ _ hk]
        exact hall _ (List.getElem_mem hk)
    · rw [heq] at h'
      subst h'
      refine ⟨by simp; omega, ?_⟩
      intro m hm
      have h1j : 1 + j = j + 1 := Nat.add_comm 1 j
      rw [h1j, List.getD_cons_succ]
      match m with
      | 0 => rw [List.getD_cons_zero]; exact hle
      | k + 1 =>
        rw [List.getD_cons_succ]
        have hk : k < xs.length := by simpa using hm
        rw [getD_of_lt _ _ _ hk]
        exact hall _ (List.getElem_mem hk)

/-- A peak record produced for a trace carries the query's group label, the
trace's name, and non-NaN magnitude and phase values. -/
theorem processTrace_some_fields {f : ℚ} {lbl name : String} {td : TraceData} {p : Peak}
    (h : processTrace f lbl name td = some p) :
    p.frequency_label = lbl ∧ p.trace = name ∧ p.magnitude.isSome ∧ p.phase.isSome := by
  simp only [processTrace] at h
  split at h
  · exact absurd h (by simp)
  · split at h
    · exact absurd h (by simp)
    · split at h
      · split at h
        · have := Option.some.inj h
          rw [← this]
          exact ⟨rfl, rfl, rfl, rfl⟩
        · exact absurd h (by simp)
      · exact absurd h (by simp)

/-- Every record in the batch collected at frequency `f` carries the group
label `format4 f` and non-NaN values. -/
theorem mem_newPeaksRaw {f : ℚ} {raw : List (String × TraceData)} {p : Peak}
    (h : p ∈ newPeaksRaw f raw) :
    p.frequency_label = format4 f ∧ p.magnitude.isSome ∧ p.phase.isSome := by
  unfold newPeaksRaw at h
  rcases List.mem_filterMap.mp h with ⟨nt, _, hnt⟩
  have hfields := processTrace_some_fields hnt
  exact ⟨hfields.1, hfields.2.2.1, hfields.2.2.2⟩

/-- C2 (amended): whenever the batch collected at the clicked frequency is
non-empty, the callback first removes every record with the same group label
and then inserts the batch, so the group's record count afterwards equals the
batch size (one record per matched trace) regardless of the prior state —
re-querying replaces instead of duplicating. -/
theorem correlate_requery_replaces (f : ℚ) (raw : List (String × TraceData))
    (existing : List Peak) (hne : newPeaksRaw f raw ≠ []) :
    countLabel (format4 f) (selectPeakCore f raw existing) = (newPeaksRaw f raw).length := by
  simp only [selectPeakCore]
  rw [if_neg hne]
  unfold countLabel
  rw [(List.perm_insertionSort peakKeyOrder _).countP_eq, List.countP_append]
  have hnew : (List.insertionSort magDescOrder (newPeaksRaw f raw)).countP
      (fun p => decide (p.frequency_label = format4 f)) = (newPeaksRaw f raw).length := by
    rw [(List.perm_insertionSort magDescOrder _).countP_eq]
    rw [List.countP_eq_length]
    intro p hp
    simpa using (mem_newPeaksRaw hp).1
  have hold : ∀ (peaks : List Peak), (∀ p ∈ peaks, p.frequency_label ≠ format4 f) →
      peaks.countP (fun p => decide (p.frequency_label = format4 f)) = 0 :=
    fun peaks h => List.countP_eq_zero.mpr (fun a ha => by simpa using h a ha)
  by_cases hmem : format4 f ∈ existing.map (fun p => p.frequency_label)
  · rw [if_pos hmem, hnew,
      hold (existing.filter (fun p => decide (p.frequency_label ≠ format4 f)))
        (fun p hp => by simpa using (List.mem_filter.mp hp).2),
      Nat.zero_add]
  · rw [if_neg hmem, hnew,
      hold existing (fun p hp hc => hmem (List.mem_map.mpr ⟨p, hp, hc⟩)),
      Nat.zero_add]

unseal Rat.mul Rat.add Rat.sub Rat.inv in
/-- Closed instance of the C2 theorem: re-querying 1 Hz with two matching
traces against a state already holding a record in group "1.0000" leaves
exactly two records (the batch size) in that group. -/
theorem correlate_requery_replaces_witness :
    newPeaksRaw 1 [("a", ⟨[1], [some 5], [some 0]⟩), ("b", ⟨[1], [some 7], [some 0]⟩)] ≠ [] ∧
    countLabel (format4 1)
        (selectPeakCore 1 [("a", ⟨[1], [some 5], [some 0]⟩), ("b", ⟨[1], [some 7], [some 0]⟩)]
          [⟨1, some 9, some 9, "b", "1.0000"⟩]) =
      (newPeaksRaw 1 [("a", ⟨[1], [some 5], [some 0]⟩), ("b", ⟨[1], [some 7], [some 0]⟩)]).length :=
  ⟨by decide,
    correlate_requery_replaces 1
      [("a", ⟨[1], [some 5], [some 0]⟩), ("b", ⟨[1], [some 7], [some 0]⟩)]
      [⟨1, some 9, some 9, "b", "1.0000"⟩] (by decide)⟩

unseal Rat.mul Rat.add Rat.sub Rat.inv in
/-- C2 counterexample to the claim as stated: when the second query at the
same nominal frequency matches zero traces (batch empty), the collection is
returned unchanged, so the group still holds 1 record while the number of
traces matched is 0 — the group count does not equal the matched count. -/
theorem correlate_requery_zero_match_cex :
    newPeaksRaw 1 [("t", ⟨[2], [some 5], [some 0]⟩)] = [] ∧
    selectPeakCore 1 [("t", ⟨[2], [some 5], [some 0]⟩)]
        (selectPeakCore 1 [("t", ⟨[1], [some 5], [some 0]⟩)] []) =
      selectPeakCore 1 [("t", ⟨[1], [some 5], [some 0]⟩)] [] ∧
    countLabel (format4 1)
      (selectPeakCore 1 [("t", ⟨[2], [some 5], [some 0]⟩)]
        (selectPeakCore 1 [("t", ⟨[1], [some 5], [some 0]⟩)] [])) = 1 :=
  ⟨by decide, by decide, by decide⟩

/-- C3 (amended): for a positive query frequency, the correlator selects an
in-bounds index of the sample nearest to `f` on the trace's own frequency
axis, and emits a record for the trace exactly when the relative distance of
that nearest frequency is within the 1% tolerance AND the matched magnitude
and phase are present and non-NaN; when the tolerance is exceeded the trace
contributes no record and causes no error (the loop just skips it). -/
theorem correlate_tolerance_spec (f : ℚ) (hf : 0 < f) (lbl name : String)
    (td : TraceData) (idx : ℕ)
    (hidx : argmin (td.freq.map (fun x => |x - f|)) = some idx) :
    (idx < td.freq.length ∧
      ∀ j, j < td.freq.length → |td.freq.getD idx 0 - f| ≤ |td.freq.getD j 0 - f|) ∧
    ((processTrace f lbl name td).isSome ↔
      (|td.freq.getD idx 0 - f| / f ≤ 1 / 100 ∧
        ((td.mag.get? idx).getD none).isSome ∧
        ((td.phase.get? idx).getD none).isSome)) ∧
    (1 / 100 < |td.freq.getD idx 0 - f| / f → processTrace f lbl name td = none) := by
  have hmap : ∀ j, j < td.freq.length →
      (td.freq.map (fun x => |x - f|)).getD j 0 = |td.freq.getD j 0 - f| := by
    intro j hj
    rw [getD_of_lt _ _ _ (by simpa using hj), List.getElem_map, getD_of_lt _ _ _ hj]
  have hargs := argmin_spec _ _ hidx
  have hlen : idx < td.freq.length := by simpa using hargs.1
  have hnear : ∀ j, j < td.freq.length →
      |td.freq.getD idx 0 - f| ≤ |td.freq.getD j 0 - f| := by
    intro j hj
    have := hargs.2 j (by simpa using hj)
    rwa [hmap idx hlen, hmap j hj] at this
  have hrel : relTolExceeded |td.freq.getD idx 0 - f| f =
      decide (1 / 100 < |td.freq.getD idx 0 - f| / f) := by
    unfold relTolExceeded
    rw [if_neg (ne_of_gt hf)]
  refine ⟨⟨hlen, hnear⟩, ?_, ?_⟩
  · by_cases htol : 1 / 100 < |td.freq.getD idx 0 - f| / f
    · have hnone : processTrace f lbl name td = none := by
        simp only [processTrace, hidx]
        rw [hrel, if_pos (by simpa using htol)]
      rw [hnone]
      simp only [Option.isSome_none, Bool.false_eq_true, false_iff]
      intro hc
      exact absurd hc.1 (not_le.mpr htol)
    · simp only [processTrace, hidx]
      rw [hrel, if_neg (by simpa using htol)]
      cases hm : td.mag.get? idx with
      | none => simp [not_lt.mp htol]
      | some mv =>
        cases hp : td.phase.get? idx with
        | none =>
          cases mv <;> simp [not_lt.mp htol]
        | some pv =>
          cases mv with
          | none => simp [not_lt.mp htol]
          | some mq =>
            cases pv with
            | none => simp [not_lt.mp htol]
            | some pq =>
              exact ⟨fun _ => ⟨not_lt.mp htol, rfl, rfl⟩, fun _ => rfl⟩
  · intro htol
    simp only [processTrace, hidx]
    rw [hrel, if_pos (by simpa using htol)]

unseal Rat.mul Rat.add Rat.sub Rat.inv in
/-- Closed instance of the C3 theorem at a two-sample trace: index 1 is the
nearest to 2 Hz, it is within tolerance with valid values, and a record is
emitted. -/
theorem correlate_tolerance_spec_witness :
    (0 : ℚ) < 2 ∧
    argmin ((⟨[1, 2], [some 5, some 6], [some 0, some 1]⟩ : TraceData).freq.map
      (fun x => |x - 2|)) = some 1 ∧
    ((processTrace 2 "2.0000" "t" ⟨[1, 2], [some 5, some 6], [some 0, some 1]⟩).isSome ↔
      (|(⟨[1, 2], [some 5, some 6], [some 0, some 1]⟩ : TraceData).freq.getD 1 0 - 2| / 2 ≤
          1 / 100 ∧
        (((⟨[1, 2], [some 5, some 6], [some 0, some 1]⟩ : TraceData).mag.get? 1).getD
          none).isSome ∧
        (((⟨[1, 2], [some 5, some 6], [some 0, some 1]⟩ : TraceData).phase.get? 1).getD
          none).isSome)) :=
  ⟨by decide, by decide,
    (correlate_tolerance_spec 2 (by decide) "2.0000" "t"
      ⟨[1, 2], [some 5, some 6], [some 0, some 1]⟩ 1 (by decide)).2.1⟩

unseal Rat.mul Rat.add Rat.sub Rat.inv in
/-- C3 counterexample to the claim as stated: a trace whose nearest sample is
exactly at the queried frequency (so inside the 1% tolerance) but carries a
NaN magnitude yields no record, contradicting the claimed "record emitted if
and only if within tolerance". -/
theorem correlate_tolerance_iff_cex :
    processTrace 1 "1.0000" "t" ⟨[1], [none], [some 0]⟩ = none ∧
    newPeaksRaw 1 [("t", ⟨[1], [none], [some 0]⟩)] = [] ∧
    |(1 : ℚ) - 1| / 1 ≤ 1 / 100 :=
  ⟨by decide, by decide, by decide⟩

/-- C9 (amended): whenever the body of the click handler fails with an
exception, the outer handler returns the existing peak collection unchanged
(a Python `existing_peaks` of `None` is the empty collection in this model). -/
theorem select_peak_catch_spec (clickX : Option ℚ) (res : Bool)
    (raw : List (String × TraceData)) (existing : List Peak) (e : PyErr)
    (h : selectPeakBody clickX res raw existing = .error e) :
    select_peak_from_click clickX res raw existing = existing := by
  unfold select_peak_from_click
  rw [h]

/-- Closed instance of the C9 theorem: a click value `float` cannot convert
raises, and the collection is returned untouched. -/
theorem select_peak_catch_spec_witness :
    select_peak_from_click none true [("t", ⟨[1], [some 5], [some 0]⟩)]
      [⟨1, some 2, some 3, "t", "1.0000"⟩] = [⟨1, some 2, some 3, "t", "1.0000"⟩] :=
  select_peak_catch_spec none true [("t", ⟨[1], [some 5], [some 0]⟩)]
    [⟨1, some 2, some 3, "t", "1.0000"⟩] .typeErr rfl

unseal Rat.mul Rat.add Rat.sub Rat.inv in
/-- C9 counterexample to the claim's example: a clicked frequency of exactly 0
raises no exception — under IEEE semantics the tolerance test divides by zero
producing inf (trace skipped) or nan (trace accepted), so a trace with a
sample exactly at 0 Hz produces a record and the stored collection is
changed, not returned unchanged. -/
theorem select_peak_zero_freq_cex :
    select_peak_from_click (some 0) true [("t", ⟨[0], [some 1], [some 2]⟩)] [] =
      [⟨0, some 1, some 2, "t", "0.0000"⟩] ∧
    select_peak_from_click (some 0) true [("t", ⟨[0], [some 1], [some 2]⟩)] [] ≠ [] ∧
    select_peak_from_click (some 0) true [("t", ⟨[5], [some 1], [some 2]⟩)] [] = [] :=
  ⟨by decide, by decide, by decide⟩

/-- C10: a comparison record is appended only when both its magnitude and its
phase are non-NaN; consequently every reachable peak collection contains no
record with a NaN magnitude or phase; and a trace whose nearest in-tolerance
sample has a NaN magnitude or phase is silently skipped. -/
theorem peak_records_no_nan :
    (∀ (f : ℚ) (lbl name : String) (td : TraceData) (p : Peak),
      processTrace f lbl name td = some p → p.magnitude.isSome ∧ p.phase.isSome) ∧
    (∀ s, ReachablePeaks s → ∀ p ∈ s, p.magnitude.isSome ∧ p.phase.isSome) ∧
    (∀ (f : ℚ) (lbl name : String) (td : TraceData) (idx : ℕ),
      argmin (td.freq.map (fun x => |x - f|)) = some idx →
      (td.mag.get? idx = some none ∨ td.phase.get? idx = some none) →
      processTrace f lbl name td = none) := by
  refine ⟨?_, ?_, ?_⟩
  · intro f lbl name td p h
    exact ⟨(processTrace_some_fields h).2.2.1, (processTrace_some_fields h).2.2.2⟩
  · intro s hs
    induction hs with
    | nil => intro p hp; exact absurd hp (List.not_mem_nil p)
    | step clickX res raw hprev ih =>
      intro p hp
      rename_i s'
      unfold select_peak_from_click at hp
      cases clickX with
      | none => exact ih p hp
      | some q =>
        cases res with
        | false => exact ih p (by simpa [selectPeakBody, pyFloat] using hp)
        | true =>
          have hp' : p ∈ selectPeakCore q raw s' := by
            simpa [selectPeakBody, pyFloat] using hp
          simp only [selectPeakCore] at hp'
          by_cases hne : newPeaksRaw q raw = []
          · rw [if_pos hne] at hp'
            exact ih p hp'
          · rw [if_neg hne] at hp'
            have hp2 := (List.perm_insertionSort peakKeyOrder _).mem_iff.mp hp'
            rcases List.mem_append.mp hp2 with hold | hnew
            · by_cases hmem : format4 q ∈ s'.map (fun r => r.frequency_label)
              · rw [if_pos hmem] at hold
                exact ih p (List.mem_filter.mp hold).1
              · rw [if_neg hmem] at hold
                exact ih p hold
            · have := (List.perm_insertionSort magDescOrder _).mem_iff.mp hnew
              exact ⟨(mem_newPeaksRaw this).2.1, (mem_newPeaksRaw this).2.2⟩
  · intro f lbl name td idx hidx hnan
    simp only [processTrace, hidx]
    split
    · rfl
    · rcases hnan with hm | hp
      · rw [hm]
        rcases hq : td.phase.get? idx with _ | pv
        · rfl
        · cases pv <;> rfl
      · rw [hp]
        rcases hq : td.mag.get? idx with _ | mv
        · rfl
        · cases mv <;> rfl

unseal Rat.mul Rat.add Rat.sub Rat.inv in
/-- Closed instance of the C10 theorem: the collection reached by one click at
1 Hz on a two-trace store (one NaN-magnitude trace skipped) holds only records
with non-NaN magnitude and phase. -/
theorem peak_records_no_nan_witness :
    ∀ p ∈ select_peak_from_click (some 1) true
      [("a", ⟨[1], [some 5], [some 0]⟩), ("b", ⟨[1], [none], [some 0]⟩)] [],
      p.magnitude.isSome ∧ p.phase.isSome :=
  peak_records_no_nan.2.1 _
    (ReachablePeaks.step (some 1) true
      [("a", ⟨[1], [some 5], [some 0]⟩), ("b", ⟨[1], [none], [some 0]⟩)]
      ReachablePeaks.nil)

/-- C5: for a series of `n ≥ 2` samples with `dt = median(diff(t))` and
`fs = 1/dt`, the direct (no-averaging) transform has `n/2 + 1` frequency bins,
bin `k` at frequency `k·fs/n`, magnitude `|FFT(value)|·2/n` at each bin, and
frequency resolution `df = fs/n`. -/
theorem perform_fft_direct_spec (t y : List ℚ) (n : ℕ) (ht : t.length = n)
    (hy : y.length = n) (h2 : 2 ≤ n) (hdt : 0 < medianQ (diffQ t)) :
    (perform_fft t y false).freq.length = n / 2 + 1 ∧
    (∀ k, k ≤ n / 2 → (perform_fft t y false).freq.getD k 0 =
      (k : ℝ) * (1 / ((medianQ (diffQ t) : ℚ) : ℝ)) / (n : ℝ)) ∧
    (∀ k, k ≤ n / 2 → (perform_fft t y false).amplitude.getD k 0 =
      Complex.abs (dftCoef y k) * 2 / (n : ℝ)) ∧
    (perform_fft t y false).df = (1 / ((medianQ (diffQ t) : ℚ) : ℝ)) / (n : ℝ) := by
  have hn0 : (n : ℝ) ≠ 0 := by
    have : 0 < n := lt_of_lt_of_le (by norm_num) h2
    exact_mod_cast Nat.pos_iff_ne_zero.mp this
  have hdt0 : ((medianQ (diffQ t) : ℚ) : ℝ) ≠ 0 := by
    have : (0 : ℝ) < ((medianQ (diffQ t) : ℚ) : ℝ) := by exact_mod_cast hdt
    exact ne_of_gt this
  subst hy
  have hform : ∀ k : ℕ, (k : ℝ) / ((y.length : ℝ) * ((medianQ (diffQ t) : ℚ) : ℝ)) =
      (k : ℝ) * (1 / ((medianQ (diffQ t) : ℚ) : ℝ)) / (y.length : ℝ) := by
    intro k
    rw [mul_one_div, div_div, mul_comm ((y.length : ℝ))]
  have hfreq_def : (perform_fft t y false).freq =
      (List.range (y.length / 2 + 1)).map
        (fun (k : ℕ) => (k : ℝ) / ((y.length : ℝ) * ((medianQ (diffQ t) : ℚ) : ℝ))) := rfl
  have hamp_def : (perform_fft t y false).amplitude =
      ((List.range (y.length / 2 + 1)).map (dftCoef y)).map
        (fun c => Complex.abs c * 2 / (y.length : ℝ)) := rfl
  have hgfreq : ∀ k, k < y.length / 2 + 1 → (perform_fft t y false).freq.getD k 0 =
      (k : ℝ) / ((y.length : ℝ) * ((medianQ (diffQ t) : ℚ) : ℝ)) := by
    intro k hk'
    rw [hfreq_def, getD_of_lt _ _ _ (by rw [List.length_map, List.length_range]; omega),
      List.getElem_map, List.getElem_range]
  refine ⟨by rw [hfreq_def, List.length_map, List.length_range], ?_, ?_, ?_⟩
  · intro k hk
    rw [hgfreq k (Nat.lt_succ_of_le hk), hform k]
  · intro k hk
    have hk' : k < y.length / 2 + 1 := Nat.lt_succ_of_le hk
    rw [hamp_def, getD_of_lt _ _ _
        (by rw [List.length_map, List.length_map, List.length_range]; omega),
      List.getElem_map, List.getElem_map, List.getElem_range]
  · have hlen : 1 < (perform_fft t y false).freq.length := by
      rw [hfreq_def, List.length_map, List.length_range]
      omega
    have hdf_def : (perform_fft t y false).df =
        if 1 < (perform_fft t y false).freq.length then
          (perform_fft t y false).freq.getD 1 0 - (perform_fft t y false).freq.getD 0 0
        else 0 := rfl
    rw [hdf_def, if_pos hlen, hgfreq 1 (by omega), hgfreq 0 (by omega)]
    rw [Nat.cast_one, Nat.cast_zero, zero_div, sub_zero, ← Nat.cast_one (R := ℝ), hform 1]
    rw [Nat.cast_one, one_mul]

unseal Rat.mul Rat.add Rat.sub Rat.inv in
/-- Closed instance of the C5 theorem: a 3-sample series with unit spacing has
`df = (1/dt)/n = 1/3`. -/
theorem perform_fft_direct_spec_witness :
    0 < medianQ (diffQ [0, 1, 2]) ∧
    (perform_fft [0, 1, 2] [1, 2, 3] false).df =
      (1 / ((medianQ (diffQ [0, 1, 2]) : ℚ) : ℝ)) / (3 : ℝ) :=
  ⟨by decide,
    (perform_fft_direct_spec [0, 1, 2] [1, 2, 3] 3 (by decide) (by decide) (by decide)
      (by decide)).2.2.2⟩

/-- Counting argument for logarithmic binning: if each element of `l`
satisfies the bin predicate of at most one index in `idx`, then the number of
indices whose bin is non-empty is at most the number of elements. -/
theorem count_nonempty_bins_le {β : Type _} (idx : List ℕ) :
    ∀ (l : List β) (p : ℕ → β → Bool),
    idx.Nodup →
    (∀ x ∈ l, ∀ i ∈ idx, ∀ j ∈ idx, p i x = true → p j x = true → i = j) →
    idx.countP (fun i => l.any (p i)) ≤ l.length := by
  induction idx with
  | nil => intro l p _ _; simp [List.countP_nil]
  | cons i rest ih =>
    intro l p hnd hex
    rw [List.countP_cons]
    have hnotin : i ∉ rest := (List.nodup_cons.mp hnd).1
    have hndr : rest.Nodup := (List.nodup_cons.mp hnd).2
    by_cases hany : l.any (p i) = true
    · rw [if_pos hany]
      have hsub : ∀ x ∈ l.filter (fun x => !(p i x)), x ∈ l :=
        fun x hx => (List.mem_filter.mp hx).1
      have hanyeq : ∀ j ∈ rest,
          l.any (p j) = (l.filter (fun x => !(p i x))).any (p j) := by
        intro j hj
        apply Bool.eq_iff_iff.mpr
        simp only [List.any_eq_true]
        constructor
        · rintro ⟨x, hx, hpx⟩
          refine ⟨x, List.mem_filter.mpr ⟨hx, ?_⟩, hpx⟩
          rw [Bool.not_eq_true']
          cases hpi : p i x with
          | false => rfl
          | true =>
            have hij : i = j := hex x hx i (List.mem_cons_self i rest)
              j (List.mem_cons_of_mem i hj) hpi hpx
            exact absurd (hij ▸ hj) hnotin
        · rintro ⟨x, hx, hpx⟩
          exact ⟨x, hsub x hx, hpx⟩
      have hcnt : rest.countP (fun j => l.any (p j)) =
          rest.countP (fun j => (l.filter (fun x => !(p i x))).any (p j)) := by
        rw [List.countP_eq_length_filter, List.countP_eq_length_filter,
          List.filter_congr hanyeq]
      have hlen' : (l.filter (fun x => !(p i x))).length + 1 ≤ l.length := by
        have h1 : (l.filter (fun x => !(p i x))).length = l.countP (fun x => !(p i x)) :=
          (List.countP_eq_length_filter _ _).symm
        have h2 : l.length = l.countP (p i) + l.countP (fun x => ¬ p i x) :=
          List.length_eq_countP_add_countP (p := p i) l
        have h3 : 0 < l.countP (p i) := by
          rcases List.any_eq_true.mp hany with ⟨x, hx, hpx⟩
          exact List.countP_pos_iff.mpr ⟨x, hx, hpx⟩
        have h4 : l.countP (fun x => !(p i x)) = l.countP (fun x => ¬ p i x) :=
          List.countP_congr (fun x _ => by simp)
        omega
      have hih := ih (l.filter (fun x => !(p i x))) p hndr
        (fun x hx i' hi' j' hj' => hex x (hsub x hx) i' (List.mem_cons_of_mem i hi')
          j' (List.mem_cons_of_mem i hj'))
      omega
    · rw [if_neg hany, Nat.add_zero]
      have hih := ih l p hndr
        (fun x hx i' hi' j' hj' => hex x hx i' (List.mem_cons_of_mem i hi')
          j' (List.mem_cons_of_mem i hj'))
      exact hih

/-- A left fold with `min` never exceeds its initial value. -/
theorem foldl_min_le_init (xs : List ℝ) : ∀ x : ℝ, xs.foldl min x ≤ x := by
  induction xs with
  | nil => intro x; exact le_refl x
  | cons a as ih =>
    intro x
    exact le_trans (ih (min x a)) (min_le_left x a)

/-- A left fold with `max` is at least its initial value. -/
theorem init_le_foldl_max (xs : List ℝ) : ∀ x : ℝ, x ≤ xs.foldl max x := by
  induction xs with
  | nil => intro x; exact le_refl x
  | cons a as ih =>
    intro x
    exact le_trans (le_max_left x a) (ih (max x a))

/-- The bin edges are non-decreasing in the bin index when the log range is
non-negative. -/
theorem binEdge_mono (lmin lmax : ℝ) (nb : ℕ) (hle : lmin ≤ lmax) {i j : ℕ}
    (hij : i ≤ j) : binEdge lmin lmax nb i ≤ binEdge lmin lmax nb j := by
  apply Real.rpow_le_rpow_of_exponent_le (by norm_num)
  apply add_le_add_left
  have hmul : (i : ℝ) * (lmax - lmin) ≤ (j : ℝ) * (lmax - lmin) :=
    mul_le_mul_of_nonneg_right (by exact_mod_cast hij) (sub_nonneg.mpr hle)
  rcases Nat.eq_zero_or_pos nb with hnb | hnb
  · subst hnb
    simp
  · exact (div_le_div_right (by exact_mod_cast hnb)).mpr hmul

/-- Each frequency sample lies in at most one bin, so the number of non-empty
bins is at most the number of samples. -/
theorem binTriples_count_le (lmin lmax : ℝ) (nb : ℕ) (pairs : List (ℝ × ℝ))
    (hle : lmin ≤ lmax) :
    (binTriples lmin lmax nb pairs).countP (fun tr => decide (0 < tr.2.2)) ≤
      pairs.length := by
  unfold binTriples
  rw [List.countP_map]
  have hcongr : (List.range nb).countP
      ((fun tr : ℝ × ℝ × ℕ => decide (0 < tr.2.2)) ∘ (fun i =>
        (binCenter lmin lmax nb i, binVal lmin lmax nb pairs i,
          binCnt lmin lmax nb pairs i))) =
      (List.range nb).countP (fun i => pairs.any (fun q => binPred lmin lmax nb i q.1)) := by
    apply List.countP_congr
    intro i _
    simp only [Function.comp_apply, decide_eq_true_eq, List.any_eq_true]
    constructor
    · intro h
      rcases List.countP_pos_iff.mp h with ⟨q, hq, hpq⟩
      exact ⟨q, hq, hpq⟩
    · rintro ⟨q, hq, hpq⟩
      exact List.countP_pos_iff.mpr ⟨q, hq, hpq⟩
  rw [hcongr]
  apply count_nonempty_bins_le (List.range nb) pairs
    (fun i q => binPred lmin lmax nb i q.1) (List.nodup_range nb)
  intro q _ i hi j hj hpi hpj
  by_contra hne
  have hkey : ∀ a b : ℕ, a < b → binPred lmin lmax nb a q.1 = true →
      binPred lmin lmax nb b q.1 = true → False := by
    intro a b hab hpa hpb
    have ha := of_decide_eq_true hpa
    have hb := of_decide_eq_true hpb
    have hedge : binEdge lmin lmax nb (a + 1) ≤ binEdge lmin lmax nb b :=
      binEdge_mono lmin lmax nb hle hab
    exact absurd (lt_of_lt_of_le ha.2 (le_trans hedge hb.1)) (lt_irrefl q.1)
  rcases Nat.lt_or_ge i j with h1 | h1
  · exact hkey i j h1 hpi hpj
  · exact hkey j i (lt_of_le_of_ne h1 (fun e => hne e.symm)) hpj hpi

/-- Output length bound for the binning core: at most one DC entry plus one
entry per non-empty bin, and non-empty bins are no more numerous than the
input samples. -/
theorem binningCore_length (dc : Option (ℝ × ℝ)) (freq psd : List ℝ) (b : ℕ)
    (out : List ℝ × List ℝ) (h : binningCore dc freq psd b = .ok out) :
    out.1.length ≤ (match dc with | some _ => 1 | none => 0) + freq.length := by
  match freq with
  | [] =>
    simp only [binningCore] at h
    have hout := Except.ok.inj h
    subst hout
    simp
  | fh :: ftl =>
    simp only [binningCore] at h
    by_cases hm : ftl.foldl min fh ≤ 0
    · rw [if_pos hm] at h
      exact absurd h (by simp)
    · rw [if_neg hm] at h
      have hout := Except.ok.inj h
      have hmM : ftl.foldl min fh ≤ ftl.foldl max fh :=
        le_trans (foldl_min_le_init ftl fh) (init_le_foldl_max ftl fh)
      have hlog : Real.logb 10 (ftl.foldl min fh) ≤ Real.logb 10 (ftl.foldl max fh) :=
        Real.logb_le_logb_of_le (by norm_num) (lt_of_not_le hm) hmM
      have hcount := binTriples_count_le (Real.logb 10 (ftl.foldl min fh))
        (Real.logb 10 (ftl.foldl max fh))
        (if (⌈(Real.logb 10 (ftl.foldl max fh) - Real.logb 10 (ftl.foldl min fh)) *
            (b : ℝ)⌉ : ℤ) < 1 then 1
         else (⌈(Real.logb 10 (ftl.foldl max fh) - Real.logb 10 (ftl.foldl min fh)) *
            (b : ℝ)⌉ : ℤ).toNat)
        ((fh :: ftl).zip psd) hlog
      have hzip : ((fh :: ftl).zip psd).length ≤ (fh :: ftl).length := by
        rw [List.length_zip]
        exact min_le_left _ _
      subst hout
      cases dc with
      | none =>
        simp only [List.length_map]
        rw [← List.countP_eq_length_filter]
        omega
      | some dcp =>
        rcases dcp with ⟨fz, pz⟩
        simp only [List.length_map]
        have hif : ((fun tr : ℝ × ℝ × ℕ => decide (0 < tr.2.2)) (fz, pz, 1)) = true := rfl
        rw [← List.countP_eq_length_filter, List.countP_cons, if_pos hif]
        omega

/-- C4 (amended): binning an all-zero frequency array of length at most one
returns empty outputs without raising; for two or more zero entries the
function raises (the NaN/inf to int conversion fails, see the
counterexample).  For every equal-length input on which the function
succeeds, the output frequency array is no longer than the input one. -/
theorem perform_binning_safety :
    (∀ (freq psd : List ℝ) (b : ℕ), (∀ x ∈ freq, x = 0) → freq.length ≤ 1 →
      perform_binning freq psd b = .ok ([], [])) ∧
    (∀ (freq psd : List ℝ) (b : ℕ) (out : List ℝ × List ℝ),
      freq.length = psd.length → perform_binning freq psd b = .ok out →
      out.1.length ≤ freq.length) := by
  constructor
  · intro freq psd b hzero hlen
    match freq, hlen with
    | [], _ =>
      cases psd <;> rfl
    | [f0], _ =>
      have hf0 : f0 = 0 := hzero f0 (by simp)
      subst hf0
      cases psd with
      | nil => rfl
      | cons p0 ptl =>
        show (if (0 : ℝ) = 0 then binningCore (some (0, p0)) [] ptl b
          else binningCore none [0] (p0 :: ptl) b) = .ok ([], [])
        rw [if_pos rfl]
        rfl
  · intro freq psd b out hlen h
    match freq, psd, hlen, h with
    | [], psd, hlen, h =>
      cases psd with
      | nil =>
        have hout : (([], []) : List ℝ × List ℝ) = out := Except.ok.inj h
        subst hout
        simp
      | cons p0 ptl =>
        have hout : (([], []) : List ℝ × List ℝ) = out := Except.ok.inj h
        subst hout
        simp
    | f0 :: ftl, [], hlen, h =>
      simp at hlen
    | f0 :: ftl, p0 :: ptl, hlen, h =>
      simp only [perform_binning] at h
      by_cases hz : f0 = 0
      · rw [if_pos hz] at h
        have := binningCore_length (some (f0, p0)) ftl ptl b out h
        simp only [List.length_cons]
        simp only at this
        omega
      · rw [if_neg hz] at h
        have := binningCore_length none (f0 :: ftl) (p0 :: ptl) b out h
        simpa using this

/-- Closed instance of the C4 theorem: the singleton all-zero array yields
empty outputs, and on the empty input the success output is no longer than
the input. -/
theorem perform_binning_safety_witness :
    perform_binning [0] [7] 10 = .ok ([], []) ∧
    (([] : List ℝ), ([] : List ℝ)).1.length ≤ ([] : List ℝ).length :=
  ⟨perform_binning_safety.1 [0] [7] 10 (by simp) (by simp),
    perform_binning_safety.2 [] [] 10 ([], []) rfl rfl⟩

/-- C4 counterexample to the claim as stated: on the two-entry all-zero
frequency array the source raises instead of returning empty output — the
leading zero is stripped, the remaining minimum is 0, `np.log10` produces
`-inf`, and `int(np.ceil(...))` fails on the resulting `nan`/`inf`. -/
theorem perform_binning_all_zero_cex :
    perform_binning [0, 0] [1, 1] 10 = .error .floatConv := by
  show (if (0 : ℝ) = 0 then binningCore (some ((0 : ℝ), (1 : ℝ))) [0] [1] 10
    else binningCore none [0, 0] [1, 1] 10) = .error .floatConv
  rw [if_pos rfl]
  unfold binningCore
  dsimp only [List.foldl]
  rw [if_pos (le_refl (0 : ℝ))]

end OFP
